import Mathlib

/-!
Verification of the SloTask board ordering engine.

This file embeds the Kanban drag-and-reorder logic of the SloTask
application (the `KanbanBoard` component: `handleDragEnd`, `createBoard`,
`createCard`, plus `addTag` from the card detail modal) as executable Lean
definitions and proves properties of the embedded operations.

Modelling conventions:
* Identifiers (uuid strings in the source) are modelled as `Nat`.
* The in-memory view `cards : Record<string, CardData[]>` becomes a total
  function `Nat → List CardData` (absent keys map to `[]`, matching the
  `|| []` defaults in the source).
* The remote cards table is a `List CardData`; a row update
  `update(...).eq('id', x)` rewrites every row whose `id` matches.
* Store writes are issued sequentially; a write failure surfaces at the
  corresponding `await` and aborts the remaining writes (the store is the
  spec's `updateCardPosition -> success|failure` collaborator).
* Inert payload fields of a card row (`description`, `due_date`) are
  omitted: the ordering operations never read or write them.
-/

namespace SloTask

/-- Card priority, one of low, medium, high, urgent. -/
inductive Priority
  | low
  | medium
  | high
  | urgent
deriving DecidableEq, Repr

/-- A task card row, as held in the per-board sequences and in the store. -/
structure CardData where
  id : Nat
  title : String
  priority : Priority
  board_id : Nat
  position : Nat
  tags : List String
deriving DecidableEq, Repr

/-- A board (column) row. -/
structure Board where
  id : Nat
  name : String
  position : Nat
deriving DecidableEq, Repr

/-- A single row update issued to the cards table during a move:
either the moved card's combined board-reference/position update, or a
position-only update for a sibling card. -/
inductive StoreWrite
  | updateCard (cardId : Nat) (boardId : Nat) (pos : Nat)
  | updatePosition (cardId : Nat) (pos : Nat)
deriving DecidableEq, Repr

/-- The drag-end event payload: destination (droppableId, index) if the
card was dropped on a board, the source (droppableId, index), and the
dragged card's id. -/
structure DragResult where
  destination : Option (Nat × Nat)
  sourceBoard : Nat
  sourceIndex : Nat
  draggableId : Nat
deriving DecidableEq, Repr

/-- Result of the synchronous part of `handleDragEnd`: the optimistic
in-memory arrangement installed by `setCards`, and the sequence of store
writes the handler then issues in order. -/
structure MoveOutcome where
  cards : Nat → List CardData
  writes : List StoreWrite

/-- `handleDragEnd` from `KanbanBoard`.

* No destination: return before any mutation, no writes.
* Same droppable and same index: return, no writes.
* Otherwise: splice the card out of the source sequence at `sourceIndex`,
  set its `board_id` to the destination board, splice it into the
  destination sequence at the destination index (into the already
  shortened sequence when source and destination boards coincide), and
  install the new arrangement.  The writes are: one update setting the
  moved card's `board_id` and `position := destination.index`; then one
  position update per entry of the destination sequence whose id differs
  from `draggableId`, set to its index; then, if the boards differ, one
  position update per entry of the source sequence, set to its index.

Returns `none` when `sourceIndex` is out of range (in the source this
dereferences `undefined` and throws before any state change). -/
def handleDragEnd (cards : Nat → List CardData) (r : DragResult) :
    Option MoveOutcome :=
  match r.destination with
  | none => some ⟨cards, []⟩
  | some (destBoard, destIndex) =>
    if destBoard = r.sourceBoard ∧ destIndex = r.sourceIndex then
      some ⟨cards, []⟩
    else
      match (cards r.sourceBoard)[r.sourceIndex]? with
      | none => none
      | some moved0 =>
        let movedCard := { moved0 with board_id := destBoard }
        let sourceCards := (cards r.sourceBoard).eraseIdx r.sourceIndex
        let destBase :=
          if r.sourceBoard = destBoard then sourceCards else cards destBoard
        let destCards :=
          destBase.take destIndex ++ movedCard :: destBase.drop destIndex
        let newCards : Nat → List CardData := fun b =>
          if b = destBoard then destCards
          else if b = r.sourceBoard then sourceCards
          else cards b
        let destWrites :=
          (destCards.enum.filter fun p => p.2.id != r.draggableId).map
            fun p => StoreWrite.updatePosition p.2.id p.1
        let sourceWrites :=
          if r.sourceBoard = destBoard then []
          else sourceCards.enum.map fun p => StoreWrite.updatePosition p.2.id p.1
        some ⟨newCards,
          StoreWrite.updateCard r.draggableId destBoard destIndex
            :: destWrites ++ sourceWrites⟩

/-- Effect of one row update on one card row (`update(...).eq('id', cid)`
matches rows by id). -/
def stepCard (x : CardData) : StoreWrite → CardData
  | .updateCard cid b p => if x.id = cid then { x with board_id := b, position := p } else x
  | .updatePosition cid p => if x.id = cid then { x with position := p } else x

/-- Apply one write to the whole cards table. -/
def applyWrite (store : List CardData) (w : StoreWrite) : List CardData :=
  store.map fun x => stepCard x w

/-- Apply a sequence of writes in order. -/
def applyWrites (store : List CardData) (ws : List StoreWrite) : List CardData :=
  ws.foldl applyWrite store

/-- Order on card rows used by the `order('position')` query. -/
def posLe (a b : CardData) : Prop := a.position ≤ b.position

instance : DecidableRel posLe := fun a b => Nat.decLe a.position b.position

instance : IsTotal CardData posLe := ⟨fun a b => Nat.le_total a.position b.position⟩

instance : IsTrans CardData posLe := ⟨fun _ _ _ h1 h2 => Nat.le_trans h1 h2⟩

/-- The cards table ordered by `position` ascending (a stable sort: ties
keep the store's row order, which is store-defined). -/
def sortByPosition (l : List CardData) : List CardData := l.insertionSort posLe

/-- `fetchBoards`, restricted to one board: the position-ordered card
query partitioned by `board_id`.  This is the authoritative per-board
sequence the engine displays after a (re)load. -/
def loadBoard (store : List CardData) (b : Nat) : List CardData :=
  (sortByPosition store).filter fun c => c.board_id == b

/-- The rows of board `b` in store order (unsorted). -/
def boardCards (store : List CardData) (b : Nat) : List CardData :=
  store.filter fun c => c.board_id == b

/-- Engine state: the in-memory per-board sequences, the remote store,
and whether the last operation reported a failure toast. -/
structure EngineState where
  mem : Nat → List CardData
  store : List CardData
  reported : Bool

/-- One full drag-end invocation against the store.  `failAt = some k`
means the write at index `k` of the issued sequence fails (raises at its
`await`): the preceding `k` writes have been committed, the remaining
ones are skipped, and the catch block reloads the in-memory state from
the store (`fetchBoards`) and reports the failure.  `failAt = none` (or
an index past the write sequence) is the all-writes-succeed run: the
optimistic arrangement stays installed and no failure is reported. -/
def runDragEnd (s : EngineState) (r : DragResult) (failAt : Option Nat) :
    Option EngineState :=
  (handleDragEnd s.mem r).map fun out =>
    match failAt with
    | some k =>
      if k < out.writes.length then
        let store1 := applyWrites s.store (out.writes.take k)
        { mem := fun b => loadBoard store1 b, store := store1, reported := true }
      else
        { mem := out.cards, store := applyWrites s.store out.writes, reported := false }
    | none =>
      { mem := out.cards, store := applyWrites s.store out.writes, reported := false }

/-- The source guards creations with `!x.trim()`: the string is rejected
exactly when every character is whitespace.  (`String.trim` itself does
not reduce in the kernel, so blankness is modelled directly.) -/
def isBlank (s : String) : Bool := s.data.all fun c => c.isWhitespace

/-- `createBoard` from `KanbanBoard`: rejects a blank name before any
store call; otherwise inserts a board with `position = boards.length`
(the current board count) and appends it to the in-memory list.  `newId`
stands for the store-generated row id. -/
def createBoard (boards : List Board) (name : String) (newId : Nat) :
    Option (List Board) :=
  if isBlank name then none
  else some (boards ++ [{ id := newId, name := name, position := boards.length }])

/-- `createCard` from `KanbanBoard`: rejects a blank title or an unset
board selection before any store call; otherwise inserts a card with
`position = (cards boardId).length` (the current card count of the
board) and an empty tag set, and appends it to that board's in-memory
sequence.  Returns the new arrangement and the inserted card. -/
def createCard (cards : Nat → List CardData) (selectedBoardId : Option Nat)
    (title : String) (priority : Priority) (newId : Nat) :
    Option ((Nat → List CardData) × CardData) :=
  match selectedBoardId with
  | none => none
  | some b =>
    if isBlank title then none
    else
      let withinBoard := cards b
      let data : CardData :=
        { id := newId, title := title, priority := priority, board_id := b,
          position := withinBoard.length, tags := [] }
      some (fun b2 => if b2 = b then withinBoard ++ [data] else cards b2, data)

/-- `addTag` from the card detail modal: a tag whose trimmed form is
empty, or that is already present (exact, case-sensitive string
equality), is rejected before any state change or store write (`none`).
Otherwise the tag is appended and the updated tag list is persisted by
one `update({tags})` write (`some updatedTags`). -/
def addTag (tags : List String) (newTag : String) : Option (List String) :=
  if isBlank newTag ∨ newTag ∈ tags then none
  else some (tags ++ [newTag])

/-- Dense positions: for every board, the stored positions of its card
rows are, up to order, exactly 0..count-1 (no duplicate, no gap). -/
def DenseStore (store : List CardData) : Prop :=
  ∀ b, ((boardCards store b).map fun c => c.position).Perm
    (List.range (boardCards store b).length)

/-- The drag-gesture precondition guaranteed by the drag-and-drop
library and assumed by the handler (spec: the moved card must currently
occupy sourceIndex of the source sequence): the dragged id is the card
at the source index, and the destination index is within the destination
droppable (at most length - 1 when reordering inside one list, at most
length when moving across lists). -/
def ValidDrag (mem : Nat → List CardData) (r : DragResult) : Prop :=
  match r.destination with
  | none => True
  | some (db, di) =>
    ((mem r.sourceBoard)[r.sourceIndex]?.map fun c => c.id) = some r.draggableId
    ∧ di ≤ (if r.sourceBoard = db then (mem r.sourceBoard).length - 1
        else (mem db).length)

/-- Correspondence between the in-memory view and the store: per board,
the (id, position) pairs of the store's rows are, up to order, the ids
of the in-memory sequence paired with their indices in it.  This holds
right after loading a dense store and is maintained by every successful
move. -/
def Tracks (mem : Nat → List CardData) (store : List CardData) : Prop :=
  ∀ b, ((boardCards store b).map fun c => (c.id, c.position)).Perm
    ((mem b).enum.map fun p => (p.2.id, p.1))

/-- Engine invariant: the in-memory view tracks the store, and store row
ids are unique (primary keys). -/
def EngineInv (s : EngineState) : Prop :=
  Tracks s.mem s.store ∧ (s.store.map fun c => c.id).Nodup

/-- A run of drag-end operations in which every step satisfies the drag
library's gesture precondition and every store write succeeds. -/
def StepsTo : EngineState → List DragResult → EngineState → Prop
  | s, [], s2 => s2 = s
  | s, r :: rs, s2 =>
    ∃ s1, ValidDrag s.mem r ∧ runDragEnd s r none = some s1 ∧ StepsTo s1 rs s2

/-- Index of the first occurrence of a number in a list (length if
absent); proof-internal device for naming a card's slot by its id. -/
def idxOfN : List Nat → Nat → Nat
  | [], _ => 0
  | a :: l, i => if a = i then 0 else idxOfN l i + 1

/-! ### Concrete fixtures used by example-based claims -/

/-- Board 0 card X at position 0. -/
def cardX : CardData := ⟨1, "X", Priority.medium, 0, 0, []⟩

/-- Board 0 card Y at position 1. -/
def cardY : CardData := ⟨2, "Y", Priority.medium, 0, 1, []⟩

/-- Board 0 card Z at position 2. -/
def cardZ : CardData := ⟨3, "Z", Priority.medium, 0, 2, []⟩

/-- In-memory view holding board 0 = [X, Y, Z]. -/
def memXYZ : Nat → List CardData := fun b => if b = 0 then [cardX, cardY, cardZ] else []

/-- Store holding the same three cards. -/
def storeXYZ : List CardData := [cardX, cardY, cardZ]

/-- Board 0 card P at position 0. -/
def cardP : CardData := ⟨1, "P", Priority.medium, 0, 0, []⟩

/-- Board 0 card Q at position 1. -/
def cardQ : CardData := ⟨2, "Q", Priority.medium, 0, 1, []⟩

/-- Board 1 card R at position 0. -/
def cardR : CardData := ⟨3, "R", Priority.medium, 1, 0, []⟩

/-- In-memory view holding board 0 = [P, Q] and board 1 = [R]. -/
def memPQR : Nat → List CardData := fun b =>
  if b = 0 then [cardP, cardQ] else if b = 1 then [cardR] else []

/-- Store holding the same three cards. -/
def storePQR : List CardData := [cardP, cardQ, cardR]

/-- The cross-board drag: P from (board 0, index 0) to (board 1, index 1). -/
def dragPQR : DragResult := ⟨some (1, 1), 0, 0, 1⟩

/-- The same-board drag: X from (board 0, index 0) to (board 0, index 2). -/
def dragXYZ : DragResult := ⟨some (0, 2), 0, 0, 1⟩

/-! ### Theorems -/

/-! #### Write-semantics helpers -/

theorem stepCard_id (x : CardData) (w : StoreWrite) : (stepCard x w).id = x.id := by
  cases w <;> simp only [stepCard] <;> split <;> rfl

theorem applyWrites_eq_map :
    ∀ (ws : List StoreWrite) (store : List CardData),
      applyWrites store ws = store.map fun x => ws.foldl stepCard x
  | [], store => by simp [applyWrites]
  | w :: ws, store => by
    show applyWrites (applyWrite store w) ws = _
    rw [applyWrites_eq_map ws (applyWrite store w), applyWrite, List.map_map]
    rfl

theorem foldl_stepCard_id (ws : List StoreWrite) (x : CardData) :
    (ws.foldl stepCard x).id = x.id := by
  induction ws generalizing x with
  | nil => rfl
  | cons w ws ih => rw [List.foldl_cons, ih, stepCard_id]

theorem applyWrites_map_id (store : List CardData) (ws : List StoreWrite) :
    (applyWrites store ws).map (fun c => c.id) = store.map fun c => c.id := by
  rw [applyWrites_eq_map, List.map_map]
  exact List.map_congr_left fun x _ => foldl_stepCard_id ws x

theorem foldl_posWrites_board (l : List (Nat × CardData)) (x : CardData) :
    ((l.map fun p => StoreWrite.updatePosition p.2.id p.1).foldl stepCard x).board_id
      = x.board_id := by
  induction l generalizing x with
  | nil => rfl
  | cons p l ih =>
    rw [List.map_cons, List.foldl_cons, ih]
    simp only [stepCard]
    split <;> rfl

theorem foldl_posWrites_miss (l : List (Nat × CardData)) (x : CardData)
    (h : ∀ p ∈ l, p.2.id ≠ x.id) :
    (l.map fun p => StoreWrite.updatePosition p.2.id p.1).foldl stepCard x = x := by
  induction l with
  | nil => rfl
  | cons p l ih =>
    rw [List.map_cons, List.foldl_cons]
    have hp : ¬ x.id = p.2.id := fun he => h p (List.mem_cons_self p l) he.symm
    simp only [stepCard, if_neg hp]
    exact ih fun q hq => h q (List.mem_cons_of_mem p hq)

theorem foldl_posWrites_hit :
    ∀ (l : List (Nat × CardData)) (x : CardData) (i : Nat) (c : CardData),
      (l.map fun p => p.2.id).Nodup → (i, c) ∈ l → c.id = x.id →
      (l.map fun p => StoreWrite.updatePosition p.2.id p.1).foldl stepCard x
        = { x with position := i }
  | [], _, _, _, _, hmem, _ => absurd hmem (List.not_mem_nil _)
  | p :: l, x, i, c, hnd, hmem, hc => by
    rw [List.map_cons, List.foldl_cons]
    rw [List.map_cons, List.nodup_cons] at hnd
    rcases List.mem_cons.mp hmem with he | hm
    · rw [← he]
      simp only [stepCard, if_pos hc.symm]
      apply foldl_posWrites_miss
      intro q hq hqe
      apply hnd.1
      rw [← he]
      have hqc : q.2.id = c.id := hqe.trans hc.symm
      exact hqc ▸ List.mem_map_of_mem (fun p => p.2.id) hq
    · have hne : ¬ x.id = p.2.id := by
        intro he2
        apply hnd.1
        rw [he2] at hc
        exact hc ▸ List.mem_map_of_mem (fun p => p.2.id) hm
      simp only [stepCard, if_neg hne]
      exact foldl_posWrites_hit l x i c hnd.2 hm hc

/-! #### List helpers -/

theorem filter_beq_singleton {α : Type} (f : α → Nat) :
    ∀ (l : List α), (l.map f).Nodup → ∀ x ∈ l, l.filter (fun y => f y == f x) = [x]
  | [], _, x, hx => absurd hx (List.not_mem_nil x)
  | a :: l, hnd, x, hx => by
    rw [List.map_cons, List.nodup_cons] at hnd
    rcases List.mem_cons.mp hx with rfl | hm
    · rw [List.filter_cons_of_pos (by simp)]
      have hnil : l.filter (fun y => f y == f x) = [] := by
        rw [List.filter_eq_nil_iff]
        intro a ha hpa
        exact hnd.1 ((beq_iff_eq.mp hpa) ▸ List.mem_map_of_mem f ha)
      rw [hnil]
    · have hne : ¬ (f a == f x) = true := by
        rw [beq_iff_eq]
        intro he
        exact hnd.1 (he ▸ List.mem_map_of_mem f hm)
      rw [List.filter_cons_of_neg (by simpa using hne)]
      exact filter_beq_singleton f l hnd.2 x hm

theorem filter_or_perm {α : Type} (p q : α → Bool) (l : List α) :
    (l.filter fun x => p x || q x).Perm
      (l.filter p ++ l.filter fun x => q x && !p x) := by
  induction l with
  | nil => rfl
  | cons a l ih =>
    by_cases hp : p a
    · rw [List.filter_cons_of_pos (by simp [hp]), List.filter_cons_of_pos hp,
        List.filter_cons_of_neg (by simp [hp])]
      exact ih.cons a
    · have hp' : p a = false := by simpa using hp
      by_cases hq : q a
      · rw [List.filter_cons_of_pos (by simp [hp', hq]),
          List.filter_cons_of_neg (by simp [hp']),
          List.filter_cons_of_pos (by simp [hp', hq])]
        exact (ih.cons a).trans List.perm_middle.symm
      · have hq' : q a = false := by simpa using hq
        rw [List.filter_cons_of_neg (by simp [hp', hq']),
          List.filter_cons_of_neg (by simp [hp']),
          List.filter_cons_of_neg (by simp [hp', hq'])]
        exact ih

theorem map_eraseIdx {α β : Type} (f : α → β) :
    ∀ (l : List α) (i : Nat), (l.eraseIdx i).map f = (l.map f).eraseIdx i
  | [], _ => by simp
  | a :: l, 0 => by simp
  | a :: l, i + 1 => by
    simp only [List.eraseIdx_cons_succ, List.map_cons]
    rw [map_eraseIdx f l i]

theorem not_mem_eraseIdx_of_nodup {α : Type} (l : List α) (i : Nat) (a : α)
    (hnd : l.Nodup) (ha : l[i]? = some a) : a ∉ l.eraseIdx i := by
  intro hmem
  rw [List.mem_eraseIdx_iff_getElem?] at hmem
  obtain ⟨j, hji, hj⟩ := hmem
  obtain ⟨hi, hia⟩ := List.getElem?_eq_some_iff.mp ha
  obtain ⟨hjlt, hja⟩ := List.getElem?_eq_some_iff.mp hj
  exact hji (List.Nodup.getElem_inj_iff hnd |>.mp (hja.trans hia.symm))

theorem filter_bne_eq_eraseIdx :
    ∀ (l : List Nat) (i : Nat) (a : Nat), l.Nodup → l[i]? = some a →
      l.filter (fun x => x != a) = l.eraseIdx i
  | [], i, a, _, ha => by simp at ha
  | b :: l, 0, a, hnd, ha => by
    obtain rfl : b = a := by simpa using ha
    rw [List.filter_cons_of_neg (by simp), List.eraseIdx_cons_zero]
    rw [List.filter_eq_self]
    intro x hx
    have hxa : x ≠ b := fun he => (List.nodup_cons.mp hnd).1 (he ▸ hx)
    simpa using hxa
  | b :: l, i + 1, a, hnd, ha => by
    have ha' : l[i]? = some a := by simpa using ha
    have hal : a ∈ l := List.getElem?_mem ha'
    have hb : ¬ (b = a) := fun he => (List.nodup_cons.mp hnd).1 (he ▸ hal)
    rw [List.filter_cons_of_pos (by simpa using hb), List.eraseIdx_cons_succ,
      filter_bne_eq_eraseIdx l i a (List.nodup_cons.mp hnd).2 ha']

theorem idxOfN_getElem :
    ∀ (l : List Nat) (j : Nat) (i : Nat), l.Nodup → l[j]? = some i → idxOfN l i = j
  | [], j, i, _, h => by simp at h
  | a :: l, 0, i, hnd, h => by
    obtain rfl : a = i := by simpa using h
    simp [idxOfN]
  | a :: l, j + 1, i, hnd, h => by
    have h' : l[j]? = some i := by simpa using h
    have hil : i ∈ l := List.getElem?_mem h'
    have hai : ¬ (a = i) := fun he => (List.nodup_cons.mp hnd).1 (he ▸ hil)
    rw [idxOfN, if_neg hai, idxOfN_getElem l j i (List.nodup_cons.mp hnd).2 h']

theorem splice_perm {α : Type} (l : List α) (i : Nat) (a : α) :
    (l.take i ++ a :: l.drop i).Perm (a :: l) := by
  have h := @List.perm_middle _ a (l.take i) (l.drop i)
  rwa [List.take_append_drop] at h

theorem nodup_splice_of_not_mem {α : Type} (l : List α) (i : Nat) (a : α)
    (hnd : l.Nodup) (ha : a ∉ l) : (l.take i ++ a :: l.drop i).Nodup :=
  (splice_perm l i a).symm.nodup (List.nodup_cons.mpr ⟨ha, hnd⟩)

theorem splice_getElem? {α : Type} (l : List α) (i : Nat) (a : α) (h : i ≤ l.length) :
    (l.take i ++ a :: l.drop i)[i]? = some a := by
  rw [List.getElem?_append_right (by rw [List.length_take_of_le h])]
  rw [List.length_take_of_le h, Nat.sub_self]
  exact List.getElem?_cons_zero

theorem splice_filter_bne {l : List Nat} {i a : Nat} (ha : a ∉ l) :
    (l.take i ++ a :: l.drop i).filter (fun x => x != a) = l := by
  rw [List.filter_append, List.filter_cons_of_neg (by simp)]
  rw [List.filter_eq_self.mpr, List.filter_eq_self.mpr, List.take_append_drop]
  · intro x hx
    have hxa : x ≠ a := fun he => ha (he ▸ List.mem_of_mem_drop hx)
    simpa using hxa
  · intro x hx
    have hxa : x ≠ a := fun he => ha (he ▸ List.mem_of_mem_take hx)
    simpa using hxa

/-! #### Invariant helpers -/

theorem boardCards_sublist (store : List CardData) (b : Nat) :
    (boardCards store b).Sublist store := List.filter_sublist store

theorem nodup_boardCards_id (store : List CardData) (b : Nat)
    (hn : (store.map fun c => c.id).Nodup) :
    ((boardCards store b).map fun c => c.id).Nodup :=
  List.Nodup.sublist (List.Sublist.map _ (boardCards_sublist store b)) hn

theorem store_id_inj (store : List CardData)
    (hn : (store.map fun c => c.id).Nodup) :
    ∀ x ∈ store, ∀ y ∈ store, x.id = y.id → x = y :=
  (List.nodup_map_iff_inj_on (List.Nodup.of_map _ hn)).mp hn

theorem mem_boardCards_ids (store : List CardData) (b : Nat) (i : Nat) :
    (i ∈ (boardCards store b).map fun c => c.id)
      ↔ ∃ x ∈ store, x.board_id = b ∧ x.id = i := by
  simp only [boardCards, List.mem_map, List.mem_filter, beq_iff_eq]
  constructor
  · rintro ⟨x, ⟨hx, hb⟩, hi⟩
    exact ⟨x, hx, hb, hi⟩
  · rintro ⟨x, hx, hb, hi⟩
    exact ⟨x, ⟨hx, hb⟩, hi⟩

theorem enum_map_snd_id (l : List CardData) :
    (l.enum.map fun p => p.2.id) = l.map fun c => c.id := by
  have h := congrArg (List.map fun c : CardData => c.id) (List.enum_map_snd l)
  rwa [List.map_map] at h

theorem tracks_ids_perm (mem : Nat → List CardData) (store : List CardData)
    (ht : Tracks mem store) (b : Nat) :
    ((boardCards store b).map fun c => c.id).Perm ((mem b).map fun c => c.id) := by
  have h : ((boardCards store b).map fun c => c.id).Perm
      ((mem b).enum.map fun p => p.2.id) := by
    have h0 := (ht b).map Prod.fst
    rwa [List.map_map, List.map_map] at h0
  exact (enum_map_snd_id (mem b)) ▸ h

theorem tracks_length (mem : Nat → List CardData) (store : List CardData)
    (ht : Tracks mem store) (b : Nat) :
    (boardCards store b).length = (mem b).length := by
  have h := (ht b).length_eq
  simpa using h

theorem tracks_pos_perm (mem : Nat → List CardData) (store : List CardData)
    (ht : Tracks mem store) (b : Nat) :
    ((boardCards store b).map fun c => c.position).Perm
      (List.range (mem b).length) := by
  have h : ((boardCards store b).map fun c => c.position).Perm
      ((mem b).enum.map Prod.fst) := by
    have h0 := (ht b).map Prod.snd
    rwa [List.map_map, List.map_map] at h0
  rwa [List.enum_map_fst] at h

theorem denseStore_of_tracks (mem : Nat → List CardData) (store : List CardData)
    (ht : Tracks mem store) : DenseStore store := by
  intro b
  have hp := tracks_pos_perm mem store ht b
  rwa [← tracks_length mem store ht b] at hp

theorem tracks_mem_ids_nodup (mem : Nat → List CardData) (store : List CardData)
    (ht : Tracks mem store) (hn : (store.map fun c => c.id).Nodup) (b : Nat) :
    ((mem b).map fun c => c.id).Nodup :=
  (tracks_ids_perm mem store ht b).nodup (nodup_boardCards_id store b hn)

theorem tracks_ids_disjoint (mem : Nat → List CardData) (store : List CardData)
    (ht : Tracks mem store) (hn : (store.map fun c => c.id).Nodup)
    (b b2 : Nat) (hne : b ≠ b2) (i : Nat)
    (h1 : i ∈ (mem b).map fun c => c.id)
    (h2 : i ∈ (mem b2).map fun c => c.id) : False := by
  have h1b := (tracks_ids_perm mem store ht b).mem_iff.mpr h1
  have h2b := (tracks_ids_perm mem store ht b2).mem_iff.mpr h2
  obtain ⟨x, hx, hxb, hxi⟩ := (mem_boardCards_ids store b i).mp h1b
  obtain ⟨y, hy, hyb, hyi⟩ := (mem_boardCards_ids store b2 i).mp h2b
  have hxy : x = y := store_id_inj store hn x hx y hy (hxi.trans hyi.symm)
  exact hne ((hxb.symm.trans (hxy ▸ hyb)).symm ▸ rfl)

/-! #### Move-step helpers -/

theorem mem_eraseIdx_of_ne {l : List Nat} {si : Nat} {a x : Nat}
    (ha : l[si]? = some a) (hx : x ∈ l) (hne : x ≠ a) : x ∈ l.eraseIdx si := by
  rw [List.mem_eraseIdx_iff_getElem?]
  obtain ⟨j, hj⟩ := List.mem_iff_getElem?.mp hx
  refine ⟨j, ?_, hj⟩
  intro hji
  rw [hji] at hj
  exact hne (Option.some.inj (hj.symm.trans ha))

theorem pairs_of_posIndexed (X : List CardData) (E : List (Nat × CardData))
    (F : CardData → CardData) (g : Nat → Nat × Nat)
    (hX : ∀ x ∈ X, ((F x).id, (F x).position) = g x.id)
    (hE : ∀ p ∈ E, ((p.2.id : Nat), (p.1 : Nat)) = g p.2.id)
    (hperm : (X.map fun c => c.id).Perm (E.map fun p => p.2.id)) :
    ((X.map F).map fun c => (c.id, c.position)).Perm
      (E.map fun p => (p.2.id, p.1)) := by
  have h1 : ((X.map F).map fun c : CardData => (c.id, c.position))
      = (X.map fun c => c.id).map g := by
    rw [List.map_map, List.map_map]
    exact List.map_congr_left fun x hx => hX x hx
  have h2 : (E.map fun p => (p.2.id, p.1)) = (E.map fun p => p.2.id).map g := by
    rw [List.map_map]
    exact List.map_congr_left fun p hp => hE p hp
  rw [h1, h2]
  exact hperm.map g

theorem exists_enum_entry (T : List CardData) (i : Nat)
    (hi : i ∈ T.map fun c => c.id) :
    ∃ j c, (j, c) ∈ T.enum ∧ c.id = i ∧ (T.map fun c => c.id)[j]? = some i := by
  obtain ⟨j, hj⟩ := List.mem_iff_getElem?.mp hi
  rw [List.getElem?_map] at hj
  cases hdj : T[j]? with
  | none => rw [hdj] at hj; simp at hj
  | some c =>
    rw [hdj] at hj
    refine ⟨j, c, List.mem_enum_iff_getElem?.mpr hdj, by simpa using hj, ?_⟩
    rw [List.getElem?_map, hdj]
    simpa using hj

theorem foldl_posWrites_enum_hit (T : List CardData) (x : CardData)
    (hnd : (T.map fun c => c.id).Nodup) (hx : x.id ∈ T.map fun c => c.id) :
    (T.enum.map fun p => StoreWrite.updatePosition p.2.id p.1).foldl stepCard x
      = { x with position := idxOfN (T.map fun c => c.id) x.id } := by
  obtain ⟨j, c, hjmem, hcx, hj⟩ := exists_enum_entry T x.id hx
  have hnd2 : (T.enum.map fun p => p.2.id).Nodup := by
    rw [enum_map_snd_id]
    exact hnd
  rw [foldl_posWrites_hit T.enum x j c hnd2 hjmem hcx,
    idxOfN_getElem _ j _ hnd hj]

theorem foldl_posWrites_filtered_enum_hit (T : List CardData) (x : CardData)
    (cid : Nat) (hnd : (T.map fun c => c.id).Nodup)
    (hx : x.id ∈ T.map fun c => c.id) (hxne : x.id ≠ cid) :
    ((T.enum.filter fun p => p.2.id != cid).map
        fun p => StoreWrite.updatePosition p.2.id p.1).foldl stepCard x
      = { x with position := idxOfN (T.map fun c => c.id) x.id } := by
  obtain ⟨j, c, hjmem, hcx, hj⟩ := exists_enum_entry T x.id hx
  have hjfil : (j, c) ∈ T.enum.filter fun p => p.2.id != cid := by
    rw [List.mem_filter]
    refine ⟨hjmem, ?_⟩
    simpa [bne_iff_ne, hcx] using hxne
  have hndf : ((T.enum.filter fun p => p.2.id != cid).map fun p => p.2.id).Nodup := by
    apply List.Nodup.sublist (List.Sublist.map _ (List.filter_sublist _))
    rw [enum_map_snd_id]
    exact hnd
  rw [foldl_posWrites_hit _ x j c hndf hjfil hcx, idxOfN_getElem _ j _ hnd hj]

/-! #### Load helpers -/

theorem sorted_loadBoard (store : List CardData) (b : Nat) :
    (loadBoard store b).Sorted posLe :=
  List.Sorted.filter _ (List.sorted_insertionSort posLe store)

theorem loadBoard_perm (store : List CardData) (b : Nat) :
    (loadBoard store b).Perm (boardCards store b) :=
  (List.perm_insertionSort posLe store).filter _

theorem loadBoard_pos_eq_range (store : List CardData) (b : Nat)
    (hd : DenseStore store) :
    (loadBoard store b).map (fun c => c.position)
      = List.range (boardCards store b).length := by
  have hs1 : List.Sorted (fun m n : Nat => m ≤ n)
      ((loadBoard store b).map fun c => c.position) :=
    List.Pairwise.map _ (fun a c h => h) (sorted_loadBoard store b)
  have hs2 : List.Sorted (fun m n : Nat => m ≤ n)
      (List.range (boardCards store b).length) :=
    List.pairwise_le_range _
  exact List.eq_of_perm_of_sorted
    (((loadBoard_perm store b).map _).trans (hd b)) hs1 hs2

theorem loadBoard_getElem_pos (store : List CardData) (b : Nat)
    (hd : DenseStore store) (k : Nat) (hk : k < (loadBoard store b).length) :
    (loadBoard store b)[k].position = k := by
  have h2 := congrArg (fun l => l[k]?) (loadBoard_pos_eq_range store b hd)
  simp only [List.getElem?_map] at h2
  rw [List.getElem?_eq_getElem hk] at h2
  have hk2 : k < (boardCards store b).length := by
    have hl := (loadBoard_perm store b).length_eq
    omega
  rw [List.getElem?_eq_getElem (by simpa using hk2)] at h2
  simpa using h2

theorem tracks_load (store : List CardData) (hd : DenseStore store) :
    Tracks (fun b => loadBoard store b) store := by
  intro b
  have hperm : ((boardCards store b).map fun c => (c.id, c.position)).Perm
      ((loadBoard store b).map fun c => (c.id, c.position)) :=
    ((loadBoard_perm store b).map _).symm
  refine hperm.trans ?_
  have heq : ((loadBoard store b).map fun c => (c.id, c.position))
      = (loadBoard store b).enum.map fun p => (p.2.id, p.1) := by
    apply List.ext_getElem
    · simp
    · intro k h1 h2
      simp only [List.getElem_map, List.getElem_enum]
      rw [loadBoard_getElem_pos store b hd k (by simpa using h1)]
  rw [heq]

/-- Core preservation lemma: one non-no-op move with all writes applied
keeps the in-memory/store correspondence.  The hypotheses name the
intermediate lists exactly as `handleDragEnd` computes them. -/
theorem tracks_move (mem : Nat → List CardData) (store : List CardData)
    (sb si db di : Nat) (moved0 : CardData)
    (srcCards destBase destCards : List CardData) (ws : List StoreWrite)
    (ht : Tracks mem store) (hn : (store.map fun c => c.id).Nodup)
    (hmv : (mem sb)[si]? = some moved0)
    (hsrc : srcCards = (mem sb).eraseIdx si)
    (hdb : destBase = if sb = db then srcCards else mem db)
    (hdi : di ≤ destBase.length)
    (hdc : destCards
      = destBase.take di ++ { moved0 with board_id := db } :: destBase.drop di)
    (hws : ws = StoreWrite.updateCard moved0.id db di
        :: ((destCards.enum.filter fun p => p.2.id != moved0.id).map
              fun p => StoreWrite.updatePosition p.2.id p.1)
          ++ (if sb = db then []
              else srcCards.enum.map
                fun p => StoreWrite.updatePosition p.2.id p.1)) :
    Tracks (fun b => if b = db then destCards else if b = sb then srcCards else mem b)
      (applyWrites store ws) := by
  have hmemnodup : ∀ b2, ((mem b2).map fun c => c.id).Nodup :=
    tracks_mem_ids_nodup mem store ht hn
  have hLsi : ((mem sb).map fun c => c.id)[si]? = some moved0.id := by
    rw [List.getElem?_map, hmv]
    rfl
  have hcidL : moved0.id ∈ (mem sb).map fun c => c.id := List.getElem?_mem hLsi
  have hsrcids : srcCards.map (fun c => c.id)
      = ((mem sb).map fun c => c.id).eraseIdx si := by
    rw [hsrc, map_eraseIdx]
  have hsrcnodup : (srcCards.map fun c => c.id).Nodup := by
    rw [hsrcids]
    exact List.Nodup.sublist (List.eraseIdx_sublist _ si) (hmemnodup sb)
  have hcidsrc : moved0.id ∉ srcCards.map fun c => c.id := by
    rw [hsrcids]
    exact not_mem_eraseIdx_of_nodup _ si _ (hmemnodup sb) hLsi
  have hsrcsub : ∀ i, i ∈ srcCards.map (fun c => c.id)
      → i ∈ (mem sb).map fun c => c.id := by
    intro i hi
    rw [hsrcids] at hi
    exact (List.eraseIdx_sublist _ si).subset hi
  have hbasenodup : (destBase.map fun c => c.id).Nodup := by
    rw [hdb]
    split
    · exact hsrcnodup
    · exact hmemnodup db
  have hcidbase : moved0.id ∉ destBase.map fun c => c.id := by
    rw [hdb]
    split
    · exact hcidsrc
    · next hbd =>
      intro hmemdb
      exact tracks_ids_disjoint mem store ht hn sb db hbd moved0.id hcidL hmemdb
  have hdcids : destCards.map (fun c => c.id)
      = (destBase.map fun c => c.id).take di
        ++ moved0.id :: ((destBase.map fun c => c.id).drop di) := by
    rw [hdc]
    simp [List.map_take, List.map_drop]
  have hdcnodup : (destCards.map fun c => c.id).Nodup := by
    rw [hdcids]
    exact nodup_splice_of_not_mem _ di _ hbasenodup hcidbase
  have hbasesub_dc : ∀ i, i ∈ destBase.map (fun c => c.id)
      → i ∈ destCards.map fun c => c.id := by
    intro i hi
    rw [hdcids]
    rw [← List.take_append_drop di (destBase.map fun c => c.id)] at hi
    rcases List.mem_append.mp hi with h | h
    · exact List.mem_append_left _ h
    · exact List.mem_append_right _ (List.mem_cons_of_mem _ h)
  have hnotdc : ∀ i, i ≠ moved0.id → i ∉ destBase.map (fun c => c.id)
      → i ∉ destCards.map fun c => c.id := by
    intro i hne hnb hi
    rw [hdcids] at hi
    rcases List.mem_append.mp hi with h | h
    · exact hnb (List.mem_of_mem_take h)
    · rcases List.mem_cons.mp h with h | h
      · exact hne h
      · exact hnb (List.mem_of_mem_drop h)
  obtain ⟨xc, hxcs, hxcb, hxci⟩ :
      ∃ xc ∈ store, xc.board_id = sb ∧ xc.id = moved0.id :=
    (mem_boardCards_ids store sb moved0.id).mp
      ((tracks_ids_perm mem store ht sb).mem_iff.mpr hcidL)
  -- per-card effect of the write sequence
  have hsplit : ∀ x : CardData, ws.foldl stepCard x
      = (if sb = db then ([] : List StoreWrite)
          else srcCards.enum.map
            fun p => StoreWrite.updatePosition p.2.id p.1).foldl stepCard
        (((destCards.enum.filter fun p => p.2.id != moved0.id).map
            fun p => StoreWrite.updatePosition p.2.id p.1).foldl stepCard
          (stepCard x (StoreWrite.updateCard moved0.id db di))) := by
    intro x
    rw [hws, List.foldl_append, List.foldl_cons]
  have hswsfold : ∀ y : CardData,
      (¬ sb = db → y.id ∉ srcCards.map (fun c => c.id)) →
      ((if sb = db then ([] : List StoreWrite)
          else srcCards.enum.map
            fun p => StoreWrite.updatePosition p.2.id p.1).foldl stepCard y) = y := by
    intro y hy
    split
    · rfl
    · next hbd =>
      apply foldl_posWrites_miss
      intro q hq hqe
      exact hy hbd (hqe ▸ List.mem_map_of_mem _
        (List.getElem?_mem (List.mem_enum_iff_getElem?.mp hq)))
  have hdwsmiss : ∀ y : CardData, y.id ∉ destCards.map (fun c => c.id) →
      (((destCards.enum.filter fun p => p.2.id != moved0.id).map
          fun p => StoreWrite.updatePosition p.2.id p.1).foldl stepCard y) = y := by
    intro y hy
    apply foldl_posWrites_miss
    intro q hq hqe
    apply hy
    rw [← hqe]
    exact List.mem_map_of_mem _
      (List.getElem?_mem (List.mem_enum_iff_getElem?.mp (List.mem_filter.mp hq).1))
  have hFcid : ∀ x : CardData, x.id = moved0.id →
      ws.foldl stepCard x = { x with board_id := db, position := di } := by
    intro x hx
    rw [hsplit x]
    have h1 : stepCard x (StoreWrite.updateCard moved0.id db di)
        = { x with board_id := db, position := di } := by
      simp only [stepCard, if_pos hx]
    rw [h1]
    have h2 : (((destCards.enum.filter fun p => p.2.id != moved0.id).map
        fun p => StoreWrite.updatePosition p.2.id p.1).foldl stepCard
          { x with board_id := db, position := di })
        = { x with board_id := db, position := di } := by
      apply foldl_posWrites_miss
      intro q hq
      have hqne := (List.mem_filter.mp hq).2
      rw [bne_iff_ne] at hqne
      simpa [hx] using hqne
    rw [h2]
    apply hswsfold
    intro _
    simpa [hx] using hcidsrc
  have hFdest : ∀ x : CardData, x.id ≠ moved0.id →
      x.id ∈ destBase.map (fun c => c.id) →
      ws.foldl stepCard x
        = { x with position := idxOfN (destCards.map fun c => c.id) x.id } := by
    intro x hxne hxb
    rw [hsplit x]
    have h1 : stepCard x (StoreWrite.updateCard moved0.id db di) = x := by
      simp only [stepCard, if_neg hxne]
    rw [h1, foldl_posWrites_filtered_enum_hit destCards x moved0.id hdcnodup
      (hbasesub_dc _ hxb) hxne]
    apply hswsfold
    intro hbd hxs
    rw [hdb, if_neg hbd] at hxb
    exact tracks_ids_disjoint mem store ht hn sb db hbd x.id (hsrcsub _ hxs) hxb
  have hFsrc : ¬ sb = db → ∀ x : CardData, x.id ∈ srcCards.map (fun c => c.id) →
      ws.foldl stepCard x
        = { x with position := idxOfN (srcCards.map fun c => c.id) x.id } := by
    intro hbd x hxs
    have hxne : x.id ≠ moved0.id := fun he => hcidsrc (he ▸ hxs)
    rw [hsplit x]
    have h1 : stepCard x (StoreWrite.updateCard moved0.id db di) = x := by
      simp only [stepCard, if_neg hxne]
    rw [h1]
    have hxnotbase : x.id ∉ destBase.map fun c => c.id := by
      rw [hdb, if_neg hbd]
      intro hdb2
      exact tracks_ids_disjoint mem store ht hn sb db hbd x.id (hsrcsub _ hxs) hdb2
    rw [hdwsmiss x (hnotdc _ hxne hxnotbase), if_neg hbd]
    exact foldl_posWrites_enum_hit srcCards x hsrcnodup hxs
  have hFother : ∀ x : CardData, x.id ≠ moved0.id →
      x.id ∉ destBase.map (fun c => c.id) → x.id ∉ srcCards.map (fun c => c.id) →
      ws.foldl stepCard x = x := by
    intro x hxne hxb hxs
    rw [hsplit x]
    have h1 : stepCard x (StoreWrite.updateCard moved0.id db di) = x := by
      simp only [stepCard, if_neg hxne]
    rw [h1, hdwsmiss x (hnotdc _ hxne hxb)]
    exact hswsfold x fun _ => hxs
  -- per-card board of the write sequence
  have hb1 : ∀ y : CardData,
      ((((destCards.enum.filter fun p => p.2.id != moved0.id).map
          fun p => StoreWrite.updatePosition p.2.id p.1).foldl stepCard y)).board_id
        = y.board_id := fun y => foldl_posWrites_board _ y
  have hb2 : ∀ y : CardData,
      (((if sb = db then ([] : List StoreWrite)
          else srcCards.enum.map
            fun p => StoreWrite.updatePosition p.2.id p.1).foldl stepCard y)).board_id
        = y.board_id := by
    intro y
    split
    · rfl
    · exact foldl_posWrites_board _ y
  have hFboard : ∀ x : CardData, (ws.foldl stepCard x).board_id
      = if x.id = moved0.id then db else x.board_id := by
    intro x
    rw [hsplit x, hb2, hb1]
    by_cases hx : x.id = moved0.id
    · rw [if_pos hx]
      simp only [stepCard, if_pos hx]
    · rw [if_neg hx]
      simp only [stepCard, if_neg hx]
  -- the new store as a per-card map
  intro b
  rw [applyWrites_eq_map]
  have hboard : boardCards (store.map fun x => ws.foldl stepCard x) b
      = (store.filter fun x => (ws.foldl stepCard x).board_id == b).map
          fun x => ws.foldl stepCard x := by
    rw [boardCards, List.filter_map]
    rfl
  rw [hboard]
  have hqcongr : (store.filter fun x => (ws.foldl stepCard x).board_id == b)
      = store.filter fun x => (if x.id = moved0.id then db else x.board_id) == b := by
    apply List.filter_congr
    intro x _
    rw [hFboard x]
  rw [hqcongr]
  by_cases hbdb : b = db
  · -- destination board
    subst hbdb
    have hq1 : (store.filter
        fun x => (if x.id = moved0.id then b else x.board_id) == b)
        = store.filter fun x => x.id == moved0.id || x.board_id == b := by
      apply List.filter_congr
      intro x _
      by_cases hxc : x.id = moved0.id
      · simp [hxc]
      · simp [hxc]
    rw [hq1]
    have hfilp : store.filter (fun x => x.id == moved0.id) = [xc] := by
      have h : store.filter (fun y => y.id == xc.id) = [xc] :=
        filter_beq_singleton (fun c : CardData => c.id) store hn xc hxcs
      calc store.filter (fun x => x.id == moved0.id)
          = store.filter (fun y => y.id == xc.id) := by rw [hxci]
        _ = [xc] := h
    have hstep1 : (store.filter fun x => x.id == moved0.id || x.board_id == b).Perm
        ([xc] ++ store.filter fun x => x.board_id == b && !(x.id == moved0.id)) := by
      have h := filter_or_perm (fun x : CardData => x.id == moved0.id)
        (fun x : CardData => x.board_id == b) store
      rwa [hfilp] at h
    refine (((hstep1.map fun x => ws.foldl stepCard x).map
        fun c : CardData => (c.id, c.position)).trans ?_)
    rw [List.map_append, List.map_append]
    have hxchunk : (([xc].map fun x => ws.foldl stepCard x).map
        fun c : CardData => (c.id, c.position)) = [(moved0.id, di)] := by
      rw [List.map_cons, List.map_nil, List.map_cons, List.map_nil, hFcid xc hxci]
      simp [hxci]
    have hX2 : (((store.filter fun x => x.board_id == b && !(x.id == moved0.id)).map
        fun x => ws.foldl stepCard x).map fun c : CardData => (c.id, c.position)).Perm
        ((destCards.enum.filter fun p => p.2.id != moved0.id).map
          fun p => (p.2.id, p.1)) := by
      apply pairs_of_posIndexed _ _ _
        (fun i => (i, idxOfN (destCards.map fun c => c.id) i))
      · intro x hx
        rw [List.mem_filter] at hx
        have hxb : x.board_id = b := by
          have := hx.2
          simp only [Bool.and_eq_true, beq_iff_eq] at this
          exact this.1
        have hxne : x.id ≠ moved0.id := by
          have := hx.2
          simp only [Bool.and_eq_true, Bool.not_eq_true', beq_eq_false_iff_ne] at this
          exact this.2
        have hxbase : x.id ∈ destBase.map fun c => c.id := by
          have hxbc : x.id ∈ (boardCards store b).map fun c => c.id :=
            (mem_boardCards_ids store b x.id).mpr ⟨x, hx.1, hxb, rfl⟩
          have hxmem : x.id ∈ (mem b).map fun c => c.id :=
            (tracks_ids_perm mem store ht b).mem_iff.mp hxbc
          rw [hdb]
          split
          · next hbd =>
            rw [hsrcids]
            rw [← hbd] at hxmem
            exact mem_eraseIdx_of_ne hLsi hxmem hxne
          · exact hxmem
        rw [hFdest x hxne hxbase]
      · intro p hp
        have hpid : (destCards.map fun c => c.id)[p.1]? = some p.2.id := by
          rw [List.getElem?_map,
            List.mem_enum_iff_getElem?.mp (List.mem_filter.mp hp).1]
          rfl
        rw [idxOfN_getElem _ p.1 _ hdcnodup hpid]
      · -- id multiset correspondence
        have hdenumids : ((destCards.enum.filter fun p => p.2.id != moved0.id).map
            fun p => p.2.id)
            = (destCards.map fun c => c.id).filter fun i => i != moved0.id := by
          rw [← enum_map_snd_id destCards, List.filter_map]
          rfl
        have hbasefilter : (destCards.map fun c => c.id).filter
            (fun i => i != moved0.id) = destBase.map fun c => c.id := by
          rw [hdcids]
          exact splice_filter_bne hcidbase
        rw [hdenumids, hbasefilter]
        have h1 : store.filter (fun x => x.board_id == b && !(x.id == moved0.id))
            = (boardCards store b).filter fun x => !(x.id == moved0.id) := by
          rw [boardCards, List.filter_filter]
          apply List.filter_congr
          intro x _
          rw [Bool.and_comm]
        rw [h1]
        have h2 : ((boardCards store b).filter fun x => !(x.id == moved0.id)).map
            (fun c => c.id)
            = ((boardCards store b).map fun c => c.id).filter
              fun i => !(i == moved0.id) := by
          rw [List.filter_map]
          rfl
        rw [h2]
        refine ((tracks_ids_perm mem store ht b).filter
          fun i => !(i == moved0.id)).trans ?_
        rw [hdb]
        split
        · next hbd =>
          rw [← hbd, hsrcids]
          have h4 : ((mem sb).map fun c => c.id).filter (fun i => !(i == moved0.id))
              = ((mem sb).map fun c => c.id).filter fun i => i != moved0.id := by
            apply List.filter_congr
            intro i _
            rfl
          rw [h4, filter_bne_eq_eraseIdx _ si _ (hmemnodup sb) hLsi]
        · next hbd =>
          have hfs : ((mem b).map fun c => c.id).filter (fun i => !(i == moved0.id))
              = (mem b).map fun c => c.id := by
            rw [List.filter_eq_self]
            intro i hi
            have hine : i ≠ moved0.id := fun he =>
              tracks_ids_disjoint mem store ht hn sb b hbd moved0.id hcidL (he ▸ hi)
            simpa using hine
          rw [hfs]
    rw [hxchunk]
    refine (List.Perm.append (List.Perm.refl _) hX2).trans ?_
    -- [(moved0.id, di)] ++ filtered-pairs ~ enum-pairs of destCards
    have hif : (fun b2 => if b2 = b then destCards
        else if b2 = sb then srcCards else mem b2) b = destCards := if_pos rfl
    rw [hif]
    have hp := List.filter_append_perm
      (fun p : Nat × CardData => p.2.id != moved0.id) destCards.enum
    have hmovedmem : destCards[di]? = some { moved0 with board_id := b } := by
      rw [hdc]
      exact splice_getElem? _ di _ hdi
    have hneg : destCards.enum.filter
        (fun p => !(p.2.id != moved0.id)) = [(di, { moved0 with board_id := b })] := by
      have hnd2 : (destCards.enum.map fun p : Nat × CardData => p.2.id).Nodup := by
        rw [enum_map_snd_id]
        exact hdcnodup
      have h3 := filter_beq_singleton (fun p : Nat × CardData => p.2.id)
        destCards.enum hnd2 (di, { moved0 with board_id := b })
        (List.mem_enum_iff_getElem?.mpr hmovedmem)
      have h5 : destCards.enum.filter (fun p => !(p.2.id != moved0.id))
          = destCards.enum.filter
            (fun p => p.2.id == (di, { moved0 with board_id := b }).2.id) := by
        apply List.filter_congr
        intro p _
        simp [bne]
      rw [h5]
      exact h3
    have hp2 : List.Perm ((destCards.enum.filter fun p => p.2.id != moved0.id)
        ++ [(di, { moved0 with board_id := b })]) destCards.enum := by
      rw [← hneg]
      exact hp
    have hp4 : (((destCards.enum.filter fun p => p.2.id != moved0.id).map
        fun p => (p.2.id, p.1)) ++ [(moved0.id, di)]).Perm
        (destCards.enum.map fun p => (p.2.id, p.1)) := by
      have h := hp2.map fun p : Nat × CardData => (p.2.id, p.1)
      simpa using h
    exact List.perm_append_comm.trans hp4
  · by_cases hbsb : b = sb
    · -- source board, necessarily a cross-board move
      subst hbsb
      have hbd : ¬ b = db := hbdb
      have hq1 : (store.filter
          fun x => (if x.id = moved0.id then db else x.board_id) == b)
          = store.filter fun x => x.board_id == b && !(x.id == moved0.id) := by
        apply List.filter_congr
        intro x _
        by_cases hxc : x.id = moved0.id
        · simp only [if_pos hxc]
          have : (db == b) = false := by
            simp only [beq_eq_false_iff_ne, ne_eq]
            exact fun he => hbd he.symm
          simp [this, hxc]
        · simp [hxc]
      rw [hq1]
      have hif : (fun b2 => if b2 = db then destCards
          else if b2 = b then srcCards else mem b2) b = srcCards := by
        show (if b = db then destCards else if b = b then srcCards else mem b)
          = srcCards
        rw [if_neg hbd, if_pos rfl]
      rw [hif]
      apply pairs_of_posIndexed _ _ _
        (fun i => (i, idxOfN (srcCards.map fun c => c.id) i))
      · intro x hx
        rw [List.mem_filter] at hx
        have hxb : x.board_id = b := by
          have := hx.2
          simp only [Bool.and_eq_true, beq_iff_eq] at this
          exact this.1
        have hxne : x.id ≠ moved0.id := by
          have := hx.2
          simp only [Bool.and_eq_true, Bool.not_eq_true', beq_eq_false_iff_ne] at this
          exact this.2
        have hxs : x.id ∈ srcCards.map fun c => c.id := by
          have hxbc : x.id ∈ (boardCards store b).map fun c => c.id :=
            (mem_boardCards_ids store b x.id).mpr ⟨x, hx.1, hxb, rfl⟩
          have hxmem : x.id ∈ (mem b).map fun c => c.id :=
            (tracks_ids_perm mem store ht b).mem_iff.mp hxbc
          rw [hsrcids]
          exact mem_eraseIdx_of_ne hLsi hxmem hxne
        rw [hFsrc (fun he => hbd he) x hxs]
      · intro p hp
        have hpid : (srcCards.map fun c => c.id)[p.1]? = some p.2.id := by
          rw [List.getElem?_map, List.mem_enum_iff_getElem?.mp hp]
          rfl
        rw [idxOfN_getElem _ p.1 _ hsrcnodup hpid]
      · have h1 : store.filter (fun x => x.board_id == b && !(x.id == moved0.id))
            = (boardCards store b).filter fun x => !(x.id == moved0.id) := by
          rw [boardCards, List.filter_filter]
          apply List.filter_congr
          intro x _
          rw [Bool.and_comm]
        rw [h1]
        have h2 : ((boardCards store b).filter fun x => !(x.id == moved0.id)).map
            (fun c => c.id)
            = ((boardCards store b).map fun c => c.id).filter
              fun i => !(i == moved0.id) := by
          rw [List.filter_map]
          rfl
        rw [h2, enum_map_snd_id]
        refine ((tracks_ids_perm mem store ht b).filter
          fun i => !(i == moved0.id)).trans ?_
        have h4 : ((mem b).map fun c => c.id).filter (fun i => !(i == moved0.id))
            = ((mem b).map fun c => c.id).filter fun i => i != moved0.id := by
          apply List.filter_congr
          intro i _
          rfl
        rw [h4, filter_bne_eq_eraseIdx _ si _ (hmemnodup b) hLsi, hsrcids]
    · -- untouched board
      have hq1 : (store.filter
          fun x => (if x.id = moved0.id then db else x.board_id) == b)
          = store.filter fun x => x.board_id == b := by
        apply List.filter_congr
        intro x hx
        by_cases hxc : x.id = moved0.id
        · have hxeq : x = xc := store_id_inj store hn x hx xc hxcs (hxc.trans hxci.symm)
          have h5 : (db == b) = false := by
            simp only [beq_eq_false_iff_ne, ne_eq]
            exact fun he => hbdb he.symm
          have h6 : (x.board_id == b) = false := by
            simp only [beq_eq_false_iff_ne, ne_eq]
            rw [hxeq, hxcb]
            exact fun he => hbsb he.symm
          rw [if_pos hxc, h5, h6]
        · rw [if_neg hxc]
      rw [hq1]
      have hif : (fun b2 => if b2 = db then destCards
          else if b2 = sb then srcCards else mem b2) b = mem b := by
        show (if b = db then destCards else if b = sb then srcCards else mem b)
          = mem b
        rw [if_neg hbdb, if_neg hbsb]
      rw [hif]
      have hFid : (store.filter fun x => x.board_id == b).map
          (fun x => ws.foldl stepCard x) = store.filter fun x => x.board_id == b := by
        have hpoint : ∀ x ∈ store.filter fun x => x.board_id == b,
            ws.foldl stepCard x = x := by
          intro x hx
          rw [List.mem_filter] at hx
          have hxb : x.board_id = b := by simpa using hx.2
          have hxid : x.id ∈ (mem b).map fun c => c.id :=
            (tracks_ids_perm mem store ht b).mem_iff.mp
              ((mem_boardCards_ids store b x.id).mpr ⟨x, hx.1, hxb, rfl⟩)
          have hxne : x.id ≠ moved0.id := by
            intro he
            have hxeq : x = xc := store_id_inj store hn x hx.1 xc hxcs (he.trans hxci.symm)
            exact hbsb ((hxeq ▸ hxb : xc.board_id = b) ▸ hxcb.symm ▸ rfl)
          have hxnb : x.id ∉ destBase.map fun c => c.id := by
            rw [hdb]
            split
            · next hbd =>
              intro hxs
              exact tracks_ids_disjoint mem store ht hn b sb hbsb x.id hxid
                (hsrcsub _ hxs)
            · next hbd =>
              intro hxs
              exact tracks_ids_disjoint mem store ht hn b db hbdb x.id hxid hxs
          have hxns : x.id ∉ srcCards.map fun c => c.id := by
            intro hxs
            exact tracks_ids_disjoint mem store ht hn b sb hbsb x.id hxid
              (hsrcsub _ hxs)
          exact hFother x hxne hxnb hxns
        calc (store.filter fun x => x.board_id == b).map (fun x => ws.foldl stepCard x)
            = (store.filter fun x => x.board_id == b).map (fun x => x) :=
              List.map_congr_left hpoint
          _ = store.filter fun x => x.board_id == b := List.map_id _
      rw [hFid]
      exact ht b

/-- One successful drag-end invocation preserves the engine invariant. -/
theorem engineInv_step (s : EngineState) (r : DragResult) (s1 : EngineState)
    (hi : EngineInv s) (hv : ValidDrag s.mem r)
    (hrun : runDragEnd s r none = some s1) : EngineInv s1 := by
  obtain ⟨ht, hn⟩ := hi
  cases hout : handleDragEnd s.mem r with
  | none =>
    rw [runDragEnd, hout] at hrun
    simp at hrun
  | some out =>
    rw [runDragEnd, hout] at hrun
    simp only [Option.map_some] at hrun
    obtain rfl := Option.some.inj hrun
    obtain ⟨dest, sb, si, cid⟩ := r
    cases dest with
    | none =>
      simp only [handleDragEnd] at hout
      obtain rfl := Option.some.inj hout
      exact ⟨ht, hn⟩
    | some p =>
      obtain ⟨db, di⟩ := p
      obtain ⟨hvid, hvdi⟩ := hv
      obtain ⟨moved0, hmv, hid⟩ := Option.map_eq_some'.mp hvid
      have hsi : si < (s.mem sb).length := by
        rcases List.getElem?_eq_some_iff.mp hmv with ⟨h, _⟩
        exact h
      simp only [handleDragEnd] at hout
      split at hout
      · obtain rfl := Option.some.inj hout
        exact ⟨ht, hn⟩
      · next hno =>
        simp only [hmv] at hout
        obtain rfl := Option.some.inj hout
        have hdi2 : di ≤ (if sb = db then (s.mem sb).eraseIdx si
            else s.mem db).length := by
          split
          · next hbd =>
            rw [List.length_eraseIdx_of_lt hsi]
            rw [if_pos hbd] at hvdi
            exact hvdi
          · next hbd =>
            rw [if_neg hbd] at hvdi
            exact hvdi
        refine ⟨tracks_move s.mem s.store sb si db di moved0 _ _ _ _ ht hn hmv
          rfl rfl hdi2 rfl ?_, ?_⟩
        · rw [hid]
        · rw [applyWrites_map_id]
          exact hn

/-- Preservation along a run of valid successful drag-end operations. -/
theorem engineInv_stepsTo (rs : List DragResult) (s s2 : EngineState)
    (hi : EngineInv s) (hsteps : StepsTo s rs s2) : EngineInv s2 := by
  induction rs generalizing s with
  | nil => exact hsteps ▸ hi
  | cons r rs ih =>
    obtain ⟨s1, hv, hrun, hrest⟩ := hsteps
    exact ih s1 (engineInv_step s r s1 hi hv hrun) hrest

/-- Density needs checking only at boards that actually hold a row. -/
theorem denseStore_of_forall_mem (store : List CardData)
    (h : ∀ b ∈ store.map fun c => c.board_id,
        ((boardCards store b).map fun c => c.position).Perm
          (List.range (boardCards store b).length)) :
    DenseStore store := by
  intro b
  by_cases hb : b ∈ store.map fun c => c.board_id
  · exact h b hb
  · have hnil : boardCards store b = [] := by
      rw [boardCards, List.filter_eq_nil_iff]
      intro x hx hpx
      exact hb ((beq_iff_eq.mp hpx) ▸ List.mem_map_of_mem _ hx)
    simp [hnil]

/-- C3: starting from a loaded state whose store is dense (every board's
positions are exactly 0..count-1) with unique row ids, any run of
successful move operations (each satisfying the drag-gesture
precondition) leaves the store dense: for every board, the set of stored
position values among its cards is exactly 0..count-1, with no
duplicates. -/
theorem moves_preserve_dense_positions (store0 : List CardData)
    (rs : List DragResult) (s2 : EngineState)
    (hd : DenseStore store0) (hn : (store0.map fun c => c.id).Nodup)
    (hsteps : StepsTo ⟨fun b => loadBoard store0 b, store0, false⟩ rs s2) :
    DenseStore s2.store := by
  have hi : EngineInv ⟨fun b => loadBoard store0 b, store0, false⟩ :=
    ⟨tracks_load store0 hd, hn⟩
  exact denseStore_of_tracks s2.mem s2.store
    (engineInv_stepsTo rs _ s2 hi hsteps).1

/-- C3 witnessed: loading the two-board store and performing the valid
cross-board move of P leaves the store dense. -/
theorem moves_preserve_dense_positions_witness :
    DenseStore ((runDragEnd ⟨fun b => loadBoard storePQR b, storePQR, false⟩
        dragPQR none).get (by decide)).store :=
  moves_preserve_dense_positions storePQR [dragPQR] _
    (denseStore_of_forall_mem storePQR (by decide)) (by decide)
    ⟨_, ⟨by decide, by decide⟩, (Option.some_get _).symm, rfl⟩

/-- C5: dropping a card at its own source slot (same board, same index)
performs no in-memory state change and issues no store write: the
handler returns the untouched arrangement with an empty write list, and
a full run leaves memory and store unchanged with no failure reported,
under every failure schedule. -/
theorem move_to_same_index_is_noop (cards : Nat → List CardData) (b i cid : Nat)
    (s : EngineState) (failAt : Option Nat) :
    handleDragEnd cards ⟨some (b, i), b, i, cid⟩ = some ⟨cards, []⟩ ∧
      runDragEnd s ⟨some (b, i), b, i, cid⟩ failAt = some ⟨s.mem, s.store, false⟩ := by
  refine ⟨by simp [handleDragEnd], ?_⟩
  cases failAt <;> simp [runDragEnd, handleDragEnd, applyWrites]

/-- C10: a drag that ends with no destination (dropped outside every
board) returns before any in-memory mutation and issues no store write:
every board's sequence and the store are unchanged and no failure is
reported, under every failure schedule. -/
theorem drag_without_destination_is_noop (cards : Nat → List CardData)
    (sb si cid : Nat) (s : EngineState) (failAt : Option Nat) :
    handleDragEnd cards ⟨none, sb, si, cid⟩ = some ⟨cards, []⟩ ∧
      runDragEnd s ⟨none, sb, si, cid⟩ failAt = some ⟨s.mem, s.store, false⟩ := by
  refine ⟨by simp [handleDragEnd], ?_⟩
  cases failAt <;> simp [runDragEnd, handleDragEnd, applyWrites]

/-- C6: for board 0 holding [X, Y, Z] (ids 1, 2, 3) at positions
[0, 1, 2], moving X from index 0 to index 2 of the same board yields the
in-memory sequence [Y, Z, X] and, after the writes complete, the
authoritative (store) sequence of board 0 is [Y, Z, X] with positions
[0, 1, 2] respectively. -/
theorem same_board_reorder_example :
    ((runDragEnd ⟨memXYZ, storeXYZ, false⟩ dragXYZ none).map fun st =>
        ((st.mem 0).map fun c => c.id,
          (loadBoard st.store 0).map fun c => (c.id, c.position)))
      = some ([2, 3, 1], [(2, 0), (3, 1), (1, 2)]) := by decide

/-- C7: for board 0 holding [P, Q] (ids 1, 2) and board 1 holding [R]
(id 3), moving P from (board 0, index 0) to (board 1, index 1) yields
board 0 = [Q] (stored position 0) and board 1 = [R, P] (stored positions
0, 1); P's board reference becomes board 1 both in memory and in the
store, and the first write issued carries P's board reference and
position together in a single row update. -/
theorem cross_board_move_example :
    ((runDragEnd ⟨memPQR, storePQR, false⟩ dragPQR none).map fun st =>
        ((st.mem 0).map fun c => (c.id, c.board_id),
          (st.mem 1).map fun c => (c.id, c.board_id),
          (loadBoard st.store 0).map fun c => (c.id, c.position),
          (loadBoard st.store 1).map fun c => (c.id, c.position)))
      = some ([(2, 0)], [(3, 1), (1, 1)], [(2, 0)], [(3, 0), (1, 1)])
    ∧ ((handleDragEnd memPQR dragPQR).map fun o => o.writes.head?)
      = some (some (StoreWrite.updateCard 1 1 1)) :=
  ⟨by decide, by decide⟩

/-- C2 counterexample: moving Z (id 3) from index 2 to index 1 of board
0 = [X, Y, Z] leaves X (id 1) at index 0 — its index and stored position
0 are unchanged — yet the handler still issues the write
updatePosition 1 0 for it.  This refutes the claim that no update is
issued for a card whose index did not change. -/
theorem move_writes_update_for_unchanged_sibling :
    ((memXYZ 0).map fun c => (c.id, c.position)) = [(1, 0), (2, 1), (3, 2)]
    ∧ ((handleDragEnd memXYZ ⟨some (0, 1), 0, 2, 3⟩).map fun o =>
          ((o.cards 0).map fun c => c.id, o.writes))
      = some ([1, 3, 2],
          [StoreWrite.updateCard 3 0 1, StoreWrite.updatePosition 1 0,
            StoreWrite.updatePosition 2 2]) := by decide

/-- C2 (amended): for every non-no-op move with an in-range source
index, the writes issued are exactly: one update setting the moved
card's board reference and position (the destination index), then one
position update per other entry of the resulting destination sequence
setting it to its index — issued regardless of whether that index
changed — then, when the boards differ, one position update per entry of
the resulting source sequence setting it to its index, again regardless
of change. -/
theorem move_writes_characterization (cards : Nat → List CardData) (r : DragResult)
    (db di : Nat)
    (hdest : r.destination = some (db, di))
    (hnoop : ¬(db = r.sourceBoard ∧ di = r.sourceIndex))
    (hsrc : r.sourceIndex < (cards r.sourceBoard).length) :
    ((handleDragEnd cards r).map fun o => o.writes)
      = (handleDragEnd cards r).map fun o =>
          StoreWrite.updateCard r.draggableId db di
            :: ((o.cards db).enum.filter fun p => p.2.id != r.draggableId).map
                (fun p => StoreWrite.updatePosition p.2.id p.1)
            ++ (if r.sourceBoard = db then []
                else (o.cards r.sourceBoard).enum.map
                  fun p => StoreWrite.updatePosition p.2.id p.1) := by
  obtain ⟨dest, sb, si, cid⟩ := r
  simp only at hdest hnoop hsrc ⊢
  subst hdest
  rw [handleDragEnd]
  simp only [hnoop, if_false]
  rw [List.getElem?_eq_getElem hsrc]
  by_cases hbd : sb = db
  · subst hbd
    simp
  · simp [hbd, Ne.symm hbd]

/-- C2 amended, witnessed at the concrete reorder of
move_writes_update_for_unchanged_sibling. -/
theorem move_writes_characterization_witness :
    ((handleDragEnd memXYZ ⟨some (0, 1), 0, 2, 3⟩).map fun o => o.writes)
      = (handleDragEnd memXYZ ⟨some (0, 1), 0, 2, 3⟩).map fun o =>
          StoreWrite.updateCard 3 0 1
            :: ((o.cards 0).enum.filter fun p => p.2.id != 3).map
                (fun p => StoreWrite.updatePosition p.2.id p.1)
            ++ (if 0 = 0 then []
                else (o.cards 0).enum.map
                  fun p => StoreWrite.updatePosition p.2.id p.1) :=
  move_writes_characterization memXYZ ⟨some (0, 1), 0, 2, 3⟩ 0 1 rfl
    (by decide) (by decide)

/-- C4 counterexample: after moving X (id 1) from index 0 to index 2 of
board 0 = [X, Y, Z], the in-memory destination sequence returned by the
handler is [Y, Z, X] but its position fields are the stale values
[1, 2, 0], not the renumbered [0, 1, 2] the claim requires. -/
theorem move_leaves_memory_positions_stale :
    ((handleDragEnd memXYZ dragXYZ).map fun o =>
        (o.cards 0).map fun c => (c.id, c.position))
      = some [(2, 1), (3, 2), (1, 0)]
    ∧ [(2, 1), (3, 2), (1, 0)] ≠ [(2, 0), (3, 1), (1, 2)] := by decide

/-- C4 (amended): the in-memory result returned before persistence has
both affected sequences spliced to the new order — the moved card is
removed at the source index and inserted at the destination index, with
its board reference set to the destination board — but card objects keep
all their other fields, including their pre-move position values: no
in-memory renumbering happens (positions are renumbered only by the
persistence writes). -/
theorem move_splices_memory_without_renumbering (cards : Nat → List CardData)
    (r : DragResult) (db di : Nat) (moved0 : CardData) (base : List CardData)
    (hdest : r.destination = some (db, di))
    (hnoop : ¬(db = r.sourceBoard ∧ di = r.sourceIndex))
    (hsrc : (cards r.sourceBoard)[r.sourceIndex]? = some moved0)
    (hbase : base = if r.sourceBoard = db then
        (cards r.sourceBoard).eraseIdx r.sourceIndex else cards db) :
    ((handleDragEnd cards r).map fun o => o.cards db)
        = some (base.take di ++ { moved0 with board_id := db } :: base.drop di)
    ∧ (r.sourceBoard ≠ db →
        ((handleDragEnd cards r).map fun o => o.cards r.sourceBoard)
          = some ((cards r.sourceBoard).eraseIdx r.sourceIndex)) := by
  obtain ⟨dest, sb, si, cid⟩ := r
  simp only at hdest hnoop hsrc hbase ⊢
  subst hdest
  subst hbase
  rw [handleDragEnd]
  simp only [hnoop, if_false]
  rw [hsrc]
  constructor
  · simp
  · intro hne
    simp [hne, Ne.symm hne]

/-- C4 amended, witnessed at the concrete cross-board move of P. -/
theorem move_splices_memory_without_renumbering_witness :
    ((handleDragEnd memPQR dragPQR).map fun o => o.cards 1)
        = some ((memPQR 1).take 1 ++ { cardP with board_id := 1 }
            :: (memPQR 1).drop 1)
    ∧ (0 ≠ 1 →
        ((handleDragEnd memPQR dragPQR).map fun o => o.cards 0)
          = some ((memPQR 0).eraseIdx 0)) :=
  move_splices_memory_without_renumbering memPQR dragPQR 1 1 cardP (memPQR 1)
    rfl (by decide) (by decide) (by decide)

/-- C8: creating a card on a board holding N cards inserts it with
position = N, an empty tag set, and appends it last in the board's
in-memory sequence; creating a board in a project with M boards inserts
it with position = M and appends it last. -/
theorem create_appends_at_end (cards : Nat → List CardData) (b : Nat)
    (title : String) (pr : Priority) (nid : Nat)
    (boards : List Board) (nm : String) (bid : Nat)
    (htitle : isBlank title = false) (hname : isBlank nm = false) :
    ((createCard cards (some b) title pr nid).map fun p => p.1 b)
        = some (cards b ++
            [{ id := nid, title := title, priority := pr, board_id := b,
               position := (cards b).length, tags := [] }])
    ∧ createBoard boards nm bid
        = some (boards ++ [{ id := bid, name := nm, position := boards.length }]) := by
  constructor
  · simp [createCard, htitle]
  · simp [createBoard, hname]

/-- C8 witnessed on a board with two cards and a project with one board. -/
theorem create_appends_at_end_witness :
    ((createCard memPQR (some 0) "New" Priority.low 9).map fun p => p.1 0)
        = some (memPQR 0 ++
            [{ id := 9, title := "New", priority := Priority.low, board_id := 0,
               position := (memPQR 0).length, tags := [] }])
    ∧ createBoard [⟨5, "Todo", 0⟩] "Done" 6
        = some ([⟨5, "Todo", 0⟩] ++ [{ id := 6, name := "Done", position := 1 }]) :=
  create_appends_at_end memPQR 0 "New" Priority.low 9 [⟨5, "Todo", 0⟩] "Done" 6
    (by decide) (by decide)

/-- C9 counterexample: the blank tag " " is not present in the empty tag
set, yet adding it is rejected (no state change, no write) rather than
appended, refuting the claim that every absent tag string is appended by
the add operation. -/
theorem addTag_absent_blank_not_appended :
    " " ∉ ([] : List String) ∧ addTag [] " " = none
      ∧ addTag [] " " ≠ some [" "] := by
  refine ⟨by decide, by decide, by decide⟩

/-- C9 (amended): adding a tag already present (exact, case-sensitive
string equality) — or one that is blank after trimming — is rejected at
the point of addition with no state change and no store write; adding an
absent, non-blank tag appends it; hence exact duplicates never enter a
card's tag set through the add operation. -/
theorem addTag_guard (tags : List String) (t : String) :
    (t ∈ tags → addTag tags t = none)
    ∧ (isBlank t = true → addTag tags t = none)
    ∧ (t ∉ tags → isBlank t = false → addTag tags t = some (tags ++ [t]))
    ∧ (∀ ts, tags.Nodup → addTag tags t = some ts → ts.Nodup) := by
  refine ⟨fun hmem => ?_, fun hblank => ?_, fun hmem hblank => ?_, fun ts hnd hts => ?_⟩
  · simp [addTag, hmem]
  · simp [addTag, hblank]
  · simp [addTag, hmem, hblank]
  · by_cases hc : isBlank t = true ∨ t ∈ tags
    · rw [addTag, if_pos hc] at hts
      exact absurd hts (by simp)
    · rw [addTag, if_neg hc] at hts
      obtain rfl : ts = tags ++ [t] := by
        simpa using hts.symm
      push_neg at hc
      simp [List.nodup_append, hnd, hc.2]

/-- C9 amended, witnessed: "a" is rejected as duplicate and "b" is
appended. -/
theorem addTag_guard_witness :
    addTag ["a"] "a" = none ∧ addTag ["a"] "b" = some ["a", "b"] :=
  ⟨(addTag_guard ["a"] "a").1 (by decide),
    (addTag_guard ["a"] "b").2.2.1 (by decide) (by decide)⟩

/-- C1: whenever any write of a move fails — the moved card's own
board/position write (index 0) or any sibling renumbering write — the
engine discards the optimistic arrangement, replaces the in-memory state
by a reload of the authoritative store (which holds exactly the writes
committed before the failure), and reports the failure.  The resulting
state is the reload of the partially updated store, not the optimistic
pre-failure view. -/
theorem move_write_failure_reloads (s : EngineState) (r : DragResult) (k : Nat)
    (ws : List StoreWrite)
    (hws : (handleDragEnd s.mem r).map (fun o => o.writes) = some ws)
    (hk : k < ws.length) :
    runDragEnd s r (some k)
      = some ⟨fun b => loadBoard (applyWrites s.store (ws.take k)) b,
          applyWrites s.store (ws.take k), true⟩ := by
  cases h : handleDragEnd s.mem r with
  | none => simp [h] at hws
  | some out =>
    simp only [h, Option.map_some] at hws
    obtain rfl : out.writes = ws := by simpa using hws
    simp [runDragEnd, h, hk]

/-- C1 witnessed: the cross-board move of P with the first sibling
renumbering write (index 1) failing, after P's own write committed. -/
theorem move_write_failure_reloads_witness :
    runDragEnd ⟨memPQR, storePQR, false⟩ dragPQR (some 1)
      = some ⟨fun b => loadBoard (applyWrites storePQR
            ([StoreWrite.updateCard 1 1 1, StoreWrite.updatePosition 3 0,
              StoreWrite.updatePosition 2 0].take 1)) b,
          applyWrites storePQR
            ([StoreWrite.updateCard 1 1 1, StoreWrite.updatePosition 3 0,
              StoreWrite.updatePosition 2 0].take 1), true⟩ :=
  move_write_failure_reloads ⟨memPQR, storePQR, false⟩ dragPQR 1
    [StoreWrite.updateCard 1 1 1, StoreWrite.updatePosition 3 0,
      StoreWrite.updatePosition 2 0] (by decide) (by decide)

end SloTask
